import Mathlib

/-!
Shallow embedding of the parser-combinator engine and source-position
subsystem of the repository (src/main.cpp, src/parser.h, src/unnamed/part_000).

`src/main.cpp` holds two iterations of the same design, separated by a
document marker:
* the single-`File` iteration (lines 1-765), whose `Context::read` returns a
  span without moving `_currentPos`;
* the `FileSet` iteration (lines 766-1525), whose `Context::read` translates
  the global position through `FileSet::map_to_local_file` (which throws when
  the position exceeds the total length) and then advances `_currentPos` by
  the requested amount.

The embedding below models the `FileSet` iteration's combinators (the latest
ones) as functions on an explicit cursor state, plus the single-`File`
iteration's `Context::read`/`str` for the claims about that iteration.
C++ exceptions (`throw -1`, `std::bad_variant_access`, stream failures) are
modelled by a distinguished `crash` outcome that every combinator propagates,
mirroring exception unwinding.  Bytes are `List Char`; positions are `Nat`.
-/

namespace Alpm

/-- Message fragments of an `Error` value, one constructor per `StringTags`
variant of the source (`Expected`, `ExpectedString`, `ExpectedStringCI`,
`Unexpected`, `UnexpectedString`, `UnexpectedStringCI`, `Message`), plus
`nested`, which inlines the fields of a nested `Error` (the `Error*`
alternative of `ErrorMessage`). -/
inductive Msg : Type where
  | expectedL (s : List Char)
  | expectedStr (s : List Char)
  | expectedStrCI (s : List Char)
  | unexpectedL (s : List Char)
  | unexpectedStr (s : List Char)
  | unexpectedStrCI (s : List Char)
  | message (s : List Char)
  | nested (position : Nat) (messages : List Msg)

/-- Tests whether a fragment is the `nested` one. -/
def Msg.isNested : Msg → Bool
  | .nested _ _ => true
  | _ => false

/-- Transcribes `struct Error` with its `position` and `messages` fields. -/
structure Error : Type where
  position : Nat
  messages : List Msg

/-- Outcome of running a parser: the two alternatives of
`ParserResult<V> = std::variant<V, Error>`, plus `crash` for a C++ exception
escaping the run (e.g. `throw -1` from `FileSet::map_to_local_file`, or
`std::bad_variant_access`). -/
inductive POut (α : Type) : Type where
  | ok (v : α)
  | err (e : Error)
  | crash

/-- Tests whether an outcome is the `err` alternative. -/
def POut.isErr : POut α → Bool
  | .err _ => true
  | _ => false

/-- Tests whether an outcome is the `crash` alternative. -/
def POut.isCrash : POut α → Bool
  | .crash => true
  | _ => false

/-- The position carried by an `err` outcome, if any. -/
def POut.errPos : POut α → Option Nat
  | .err e => some e.position
  | _ => none

/-- The message list carried by an `err` outcome, if any. -/
def POut.errMsgs : POut α → Option (List Msg)
  | .err e => some e.messages
  | _ => none

/-- The `Context` of the `FileSet` iteration: the virtual concatenated byte
space (here a single-file `FileSet`, i.e. the concatenation itself) plus
`_currentPos`. -/
structure Ctx : Type where
  bytes : List Char
  pos : Nat
deriving DecidableEq

/-- Transcribes `Context::read(amount)` of the `FileSet` iteration: it resolves
`_currentPos` and `_currentPos + amount` through `FileSet::map_to_local_file`,
which throws (`none`) when the position exceeds the total length; on success
it returns the span and advances `_currentPos` by `amount`.  The throw happens
before `_currentPos += amount`, so a crashing read leaves the position
unchanged. -/
def Ctx.read (c : Ctx) (amount : Nat) : Option (List Char) × Ctx :=
  if c.pos + amount ≤ c.bytes.length then
    (some ((c.bytes.drop c.pos).take amount), { c with pos := c.pos + amount })
  else
    (none, c)

/-- Models `Parser<T>` by its extension: a function from cursor state to outcome and
final cursor state (`ParserResult<T> parse(Context&)`). -/
def ParserC (α : Type) : Type := Ctx → POut α × Ctx

/-- The primitive `str` parser of the `FileSet` iteration: records the
incoming position, reads `len(s)` bytes (advancing the cursor), and fails with
`[UnexpectedString(read), ExpectedString(s)]` anchored at the incoming
position unless the bytes read equal `s`.  A read beyond the address space
throws inside `Context::read`, which escapes `str` as a crash. -/
def str (s : List Char) : ParserC (List Char) := fun ctx =>
  let incoming := ctx.pos
  match ctx.read s.length with
  | (none, c) => (.crash, c)
  | (some rd, c) =>
    if rd.length < s.length ∨ rd ≠ s then
      (.err ⟨incoming, [.unexpectedStr rd, .expectedStr s]⟩, c)
    else
      (.ok rd, c)

/-- Same-type `Parser::or_parse`: run the first parser; on success return its
result; on failure run the second parser from wherever the first left the
cursor and return that result unconditionally. -/
def or_parse (p q : ParserC α) : ParserC α := fun ctx =>
  match p ctx with
  | (.err _, c) => q c
  | other => other

/-- Heterogeneous `Parser::or_parse` (returning `std::variant<T, F>`): on
double failure it takes the second parser's `Error` and `push_back`s the first
parser's `Error` onto its message list as a nested fragment. -/
def or_parse2 (p : ParserC α) (q : ParserC β) : ParserC (α ⊕ β) := fun ctx =>
  match p ctx with
  | (.ok v, c) => (.ok (Sum.inl v), c)
  | (.crash, c) => (.crash, c)
  | (.err e1, c) =>
    match q c with
    | (.ok w, c2) => (.ok (Sum.inr w), c2)
    | (.crash, c2) => (.crash, c2)
    | (.err e2, c2) =>
      (.err ⟨e2.position, e2.messages ++ [Msg.nested e1.position e1.messages]⟩, c2)

/-- Transcribes `attempt(p)`: record the incoming position; run `p`; on failure
`goto_pos` back to the recorded position before returning the error.  A C++
exception from `p` skips the restore (`goto_pos` is only on the failure
branch). -/
def attempt (p : ParserC α) : ParserC α := fun ctx =>
  let incoming := ctx.pos
  match p ctx with
  | (.err e, c) => (.err e, { c with pos := incoming })
  | other => other

/-- Transcribes `Parser::between(bracket)` of the `FileSet` iteration: bracket, then the
body, then bracket again.  On the opening bracket's failure its error is
returned; on the body's failure that error is returned; on the closing
bracket's failure the source executes `std::get<Error>(result)` where
`result` is the *successful* opening-bracket result, raising
`std::bad_variant_access` — modelled as `crash`. -/
def between (p : ParserC α) (bracket : ParserC β) : ParserC α := fun ctx =>
  match bracket ctx with
  | (.err e, c) => (.err e, c)
  | (.crash, c) => (.crash, c)
  | (.ok _, c) =>
    match p c with
    | (.err e2, c2) => (.err e2, c2)
    | (.crash, c2) => (.crash, c2)
    | (.ok v, c2) =>
      match bracket c2 with
      | (.err _, c3) => (.crash, c3)
      | (.crash, c3) => (.crash, c3)
      | (.ok _, c3) => (.ok v, c3)

/-- Transcribes `Parser::many()`: loop running `p`, pushing each success, returning the
collected list as a success at `p`'s first failure, with the cursor exactly
where the failing run left it.  The C++ loop has no bound; `fuel` caps the
modelled iteration count (the loop body is exact for every prefix of the
run), and exhausted fuel returns the list collected so far. -/
def many (p : ParserC α) : Nat → ParserC (List α)
  | 0 => fun ctx => (.ok [], ctx)
  | fuel + 1 => fun ctx =>
    match p ctx with
    | (.err _, c) => (.ok [], c)
    | (.crash, c) => (.crash, c)
    | (.ok v, c) =>
      match many p fuel c with
      | (.ok l, c2) => (.ok (v :: l), c2)
      | other => other

/-- The free-standing N-ary `map` at arity 3, transcribing the fold
expression: every sub-parser is run, left to right, against the same cursor,
with no short-circuiting; each failure overwrites `fail`, so the surviving
failure is the **last** failing sub-parser's error; a C++ exception during a
sub-parse unwinds the whole fold.  The final `crash` arm is unreachable
(crashes are filtered above) but keeps the function total. -/
def map3 (f : α → β → γ → δ) (p1 : ParserC α) (p2 : ParserC β) (p3 : ParserC γ) :
    ParserC δ := fun ctx =>
  match p1 ctx with
  | (.crash, c1) => (.crash, c1)
  | (r1, c1) =>
    match p2 c1 with
    | (.crash, c2) => (.crash, c2)
    | (r2, c2) =>
      match p3 c2 with
      | (.crash, c3) => (.crash, c3)
      | (r3, c3) =>
        match r3 with
        | .err e3 => (.err e3, c3)
        | _ =>
          match r2 with
          | .err e2 => (.err e2, c3)
          | _ =>
            match r1 with
            | .err e1 => (.err e1, c3)
            | _ =>
              match r1, r2, r3 with
              | .ok v1, .ok v2, .ok v3 => (.ok (f v1 v2 v3), c3)
              | _, _, _ => (.crash, c3)

/-! ### The single-`File` iteration's `Context` (src/main.cpp lines 190-238) -/

/-- Transcribes `Context::read(amount)` of the single-`File` iteration: it
calls `File::read_span(_currentPos, _currentPos + amount)` and returns the
result without ever touching `_currentPos`.  This iteration's `File` enables
failbit exceptions on its stream, so a read that cannot deliver every
requested byte throws (`none`) instead of returning a short span; the throw
happens inside `read_span`, so the position is untouched on that path too.
`read_span` special-cases `from == to` to read the single byte at `from`;
otherwise it reads the `to - from` bytes starting at `from`. -/
def readB (c : Ctx) (amount : Nat) : Option (List Char) × Ctx :=
  if amount = 0 then
    (if c.pos + 1 ≤ c.bytes.length then some ((c.bytes.drop c.pos).take 1)
     else none, c)
  else
    (if c.pos + amount ≤ c.bytes.length then some ((c.bytes.drop c.pos).take amount)
     else none, c)

/-- The primitive `str` parser of the single-`File` iteration: identical text
to the `FileSet` iteration's `str`, but running over the non-advancing
`Context::read` above; the stream exception from a short read escapes the
parser as a crash. -/
def strB (s : List Char) : ParserC (List Char) := fun ctx =>
  let incoming := ctx.pos
  match readB ctx s.length with
  | (none, c) => (.crash, c)
  | (some rd, c) =>
    if rd.length < s.length ∨ rd ≠ s then
      (.err ⟨incoming, [.unexpectedStr rd, .expectedStr s]⟩, c)
    else
      (.ok rd, c)

/-! ### `FileSet` position mapping (src/main.cpp lines 913-1007)

A `FileSet` is an ordered list of files; for the position arithmetic only the
list of file lengths matters, and a file is identified by its index in the
list (the source compares `File*` pointers, and each `File` is exclusively
owned, so pointer identity is list-index identity).  `throw -1` is modelled
as `none`. -/

/-- Loop body of `FileSet::map_to_local_file`: walk the lengths accumulating
`total_sizes`; at the first file with `pos <= total_sizes`, return
`pos - (total_sizes - item)`. -/
def mtl_go : List Nat → Nat → Nat → Option Nat
  | [], _, _ => none
  | item :: rest, total, pos =>
    if pos ≤ total + item then
      some (pos - ((total + item) - item))
    else
      mtl_go rest (total + item) pos

/-- Transcribes `FileSet::map_to_local_file(pos)`. -/
def map_to_local_file (lens : List Nat) (pos : Nat) : Option Nat :=
  mtl_go lens 0 pos

/-- Loop body of `FileSet::map_from_local_file`: walk the files accumulating
`total_sizes`; at the requested file, return
`(total_sizes - item->length()) + pos`. -/
def mfl_go : List Nat → Nat → Nat → Nat → Nat → Option Nat
  | [], _, _, _, _ => none
  | item :: rest, fileIdx, cur, total, pos =>
    if cur = fileIdx then
      some (((total + item) - item) + pos)
    else
      mfl_go rest fileIdx (cur + 1) (total + item) pos

/-- Transcribes `FileSet::map_from_local_file(file, pos)`, with the file given by its
index in the set. -/
def map_from_local_file (lens : List Nat) (fileIdx : Nat) (pos : Nat) : Option Nat :=
  mfl_go lens fileIdx 0 0 pos

/-- Loop body of `FileSet::file_for_pos`: the index of the first file whose
cumulative end is `>= pos`. -/
def ffp_go : List Nat → Nat → Nat → Nat → Option Nat
  | [], _, _, _ => none
  | item :: rest, idx, total, pos =>
    if pos ≤ total + item then
      some idx
    else
      ffp_go rest (idx + 1) (total + item) pos

/-- Transcribes `FileSet::file_for_pos(pos)`, returning the file's index in the set. -/
def file_for_pos (lens : List Nat) (pos : Nat) : Option Nat :=
  ffp_go lens 0 0 pos

/-! ### `File` line/column mapping (src/main.cpp lines 88-143) -/

/-- One iteration of the `File::pos_to_line_col` scan: `col++` happens before
the byte is read, and a newline resets `col` to 1 and bumps `line`. -/
def ptlc_step (lc : Nat × Nat) (c : Char) : Nat × Nat :=
  if c = '\n' then (lc.1 + 1, 1) else (lc.1, lc.2 + 1)

/-- Transcribes `File::pos_to_line_col(pos)`: scan the first `pos` bytes from the file
start, starting from line 1, column 1. -/
def pos_to_line_col (bytes : List Char) (pos : Nat) : Nat × Nat :=
  (bytes.take pos).foldl ptlc_step (1, 1)

/-- Loop of `File::line_col_to_pos(line, col)`: starting from line 1,
column 1 at stream position 0, check for the target *before* reading each
byte; a read past end-of-file fails the stream (`none`). -/
def lctp_go (line col : Nat) : List Char → Nat → Nat → Nat → Option Nat
  | [], curLine, curCol, streamPos =>
    if line = curLine ∧ col = curCol then
      some streamPos
    else
      none
  | c :: rest, curLine, curCol, streamPos =>
    if line = curLine ∧ col = curCol then
      some streamPos
    else
      if c = '\n' then
        lctp_go line col rest (curLine + 1) 1 (streamPos + 1)
      else
        lctp_go line col rest curLine (curCol + 1) (streamPos + 1)

/-- Transcribes `File::line_col_to_pos(line, col)` (1-based line and column). -/
def line_col_to_pos (bytes : List Char) (line col : Nat) : Option Nat :=
  lctp_go line col bytes 1 1 0

/-! ### Position-level semantics of the whole combinator library

For the cursor invariant claim we need to quantify over every parser built
from the library's pieces, so the grammars are reified as a syntax tree and
run by a position-level interpreter.  Value plumbing is irrelevant to cursor
positions, so outcomes are reduced to their tag.

`Context::current()` (`FileSet::read_byte`) resolves the position through
`file_for_pos`, which throws when the position exceeds the total length; at
exactly the total length the underlying `File::read_pos` performs a failing
stream read and hands back an indeterminate byte (the `FileSet` iteration's
`File` sets no stream exception flags).  That indeterminate byte is the
parameter `g`: every theorem below holds for all values of `g`. -/

/-- Outcome tag: success, recoverable failure, or C++ exception. -/
inductive ROut : Type where
  | ok
  | err
  | crash
deriving DecidableEq

/-- Syntax of parsers built from the library's combinators: `str` literals,
predicate runs (`spaces` / `ident` / `to_newline`), `or_parse`, `attempt`,
`many`, `between` (body, bracket) and sequential N-ary `map` composition. -/
inductive PExp : Type where
  | lit (s : List Char)
  | predRun (f : Char → Bool)
  | orE (p q : PExp)
  | attemptE (p : PExp)
  | manyE (p : PExp)
  | betweenE (p bracket : PExp)
  | seqE (p q : PExp)

/-- The `while (pred(ctx.current())) ctx.next();` loop shared by `spaces`,
`ident` and `to_newline`: `current()` throws past the total length and reads
the indeterminate byte `g` at exactly the total length; `next()` increments
the position and immediately calls `current()` again, so stepping past the
end raises on the next entry. -/
def predLoop (g : Char) (f : Char → Bool) (bytes : List Char) (pos : Nat) :
    ROut × Nat :=
  if h1 : bytes.length < pos then
    (.crash, pos)
  else
    let ch := if h2 : pos = bytes.length then g else bytes.get ⟨pos, by omega⟩
    if f ch then
      predLoop g f bytes (pos + 1)
    else
      (.ok, pos)
termination_by bytes.length + 1 - pos
decreasing_by simp_wf; omega

/-- Position-level interpreter for `PExp`, mirroring each combinator of the
`FileSet` iteration (see the value-level definitions above): `fuel` bounds
the unbounded `many` loop only.  Crashes propagate through every combinator,
as C++ exception unwinding does. -/
def runP (g : Char) : Nat → PExp → Ctx → ROut × Ctx
  | _, .lit s, ctx =>
    if ctx.pos + s.length ≤ ctx.bytes.length then
      if (ctx.bytes.drop ctx.pos).take s.length = s then
        (.ok, { ctx with pos := ctx.pos + s.length })
      else
        (.err, { ctx with pos := ctx.pos + s.length })
    else
      (.crash, ctx)
  | _, .predRun f, ctx =>
    let r := predLoop g f ctx.bytes ctx.pos
    (r.1, { ctx with pos := r.2 })
  | fuel, .orE p q, ctx =>
    match runP g fuel p ctx with
    | (.err, c) => runP g fuel q c
    | other => other
  | fuel, .attemptE p, ctx =>
    match runP g fuel p ctx with
    | (.err, c) => (.err, { c with pos := ctx.pos })
    | other => other
  | 0, .manyE _, ctx => (.ok, ctx)
  | fuel + 1, .manyE p, ctx =>
    match runP g (fuel + 1) p ctx with
    | (.err, c) => (.ok, c)
    | (.crash, c) => (.crash, c)
    | (.ok, c) => runP g fuel (.manyE p) c
  | fuel, .betweenE p b, ctx =>
    match runP g fuel b ctx with
    | (.err, c) => (.err, c)
    | (.crash, c) => (.crash, c)
    | (.ok, c) =>
      match runP g fuel p c with
      | (.err, c2) => (.err, c2)
      | (.crash, c2) => (.crash, c2)
      | (.ok, c2) =>
        match runP g fuel b c2 with
        | (.err, c3) => (.crash, c3)
        | other => other
  | fuel, .seqE p q, ctx =>
    match runP g fuel p ctx with
    | (.crash, c) => (.crash, c)
    | (r1, c) =>
      match runP g fuel q c with
      | (.crash, c2) => (.crash, c2)
      | (r2, c2) =>
        if r1 = .err ∨ r2 = .err then (.err, c2) else (.ok, c2)

/-- Lexicographic order on (line, column) scan states. -/
def lexLt (a b : Nat × Nat) : Prop :=
  a.1 < b.1 ∨ (a.1 = b.1 ∧ a.2 < b.2)

/-! ## Theorems -/

/-- Auxiliary: `many` can never produce the `err` alternative, whatever the
sub-parser, the fuel and the cursor state. -/
theorem many_isErr_false (p : ParserC α) :
    ∀ (fuel : Nat) (ctx : Ctx), ((many p fuel ctx).1).isErr = false
  | 0, _ => rfl
  | fuel + 1, ctx => by
    simp only [many]
    rcases h : p ctx with ⟨r, c⟩
    match r with
    | .err e => rfl
    | .crash => rfl
    | .ok v =>
      have hrec := many_isErr_false p fuel c
      rcases h2 : many p fuel c with ⟨r2, c2⟩
      rw [h2] at hrec
      match r2 with
      | .ok l => simp [h2, POut.isErr]
      | .err e2 => simp [POut.isErr] at hrec
      | .crash => simp [h2, POut.isErr]

/-- Claim C3 (confirmed): `attempt(p)` on failure restores the cursor to
exactly its position before `p` ran and propagates `p`'s error unchanged; on
success it returns `p`'s value with the cursor exactly where `p` left it. -/
theorem attempt_frame (p : ParserC α) (ctx : Ctx) :
    (∀ (e : Error) (cAfter : Ctx), p ctx = (.err e, cAfter) →
        attempt p ctx = (.err e, { cAfter with pos := ctx.pos })) ∧
    (∀ (v : α) (cAfter : Ctx), p ctx = (.ok v, cAfter) →
        attempt p ctx = (.ok v, cAfter)) := by
  constructor
  · intro e cAfter h
    simp [attempt, h]
  · intro v cAfter h
    simp [attempt, h]

/-- Witness for `attempt_frame`: `attempt (str "a")` on input `"bx"` fails
(the literal consumed one byte) with the cursor restored to 0, and on input
`"ax"` succeeds leaving the cursor at 1, exactly where the unwrapped literal
leaves it. -/
theorem attempt_frame_witness :
    attempt (str ['a']) ⟨['b', 'x'], 0⟩ =
      (.err ⟨0, [.unexpectedStr ['b'], .expectedStr ['a']]⟩, ⟨['b', 'x'], 0⟩) ∧
    attempt (str ['a']) ⟨['a', 'x'], 0⟩ = (.ok ['a'], ⟨['a', 'x'], 1⟩) :=
  ⟨(attempt_frame (str ['a']) ⟨['b', 'x'], 0⟩).1
      ⟨0, [.unexpectedStr ['b'], .expectedStr ['a']]⟩ ⟨['b', 'x'], 1⟩ rfl,
   (attempt_frame (str ['a']) ⟨['a', 'x'], 0⟩).2 ['a'] ⟨['a', 'x'], 1⟩ rfl⟩

/-- Claim C4 (confirmed): `many(p)` never returns a failure; it stops at
`p`'s first failure, possibly with zero collected elements, leaving the
cursor exactly where the failing run of `p` left it (no rewind), and each
success of `p` is collected in order. -/
theorem many_spec (p : ParserC α) (fuel : Nat) (ctx : Ctx) :
    ((many p fuel ctx).1).isErr = false ∧
    (∀ (e : Error) (cAfter : Ctx), p ctx = (.err e, cAfter) →
        many p (fuel + 1) ctx = (.ok [], cAfter)) ∧
    (∀ (v : α) (c1 : Ctx) (l : List α) (c2 : Ctx),
        p ctx = (.ok v, c1) → many p fuel c1 = (.ok l, c2) →
        many p (fuel + 1) ctx = (.ok (v :: l), c2)) := by
  refine ⟨many_isErr_false p fuel ctx, ?_, ?_⟩
  · intro e cAfter h
    simp [many, h]
  · intro v c1 l c2 h h2
    simp [many, h, h2]

/-- Witness for `many_spec`: over input `"ab"`, `many (str "a")` collects one
element and stops at the failing second attempt, whose consumed byte is not
rewound (final position 2, not 1). -/
theorem many_spec_witness :
    many (str ['a']) 1 ⟨['a', 'b'], 1⟩ = (.ok [], ⟨['a', 'b'], 2⟩) ∧
    many (str ['a']) 2 ⟨['a', 'b'], 0⟩ = (.ok [['a']], ⟨['a', 'b'], 2⟩) :=
  ⟨(many_spec (str ['a']) 0 ⟨['a', 'b'], 1⟩).2.1
      ⟨1, [.unexpectedStr ['b'], .expectedStr ['a']]⟩ ⟨['a', 'b'], 2⟩ rfl,
   (many_spec (str ['a']) 1 ⟨['a', 'b'], 0⟩).2.2 ['a'] ⟨['a', 'b'], 1⟩ [] ⟨['a', 'b'], 2⟩
      rfl rfl⟩

/-- Claim C10 (confirmed): in the single-`File` iteration, `Context::read`
never moves the cursor (not even when the underlying stream read throws),
an in-bounds read of `n ≥ 1` bytes returns exactly the `n` bytes at the
current position, and the `str` parser built on this read leaves the cursor
at exactly its pre-run position even when it succeeds — a successful literal
consumes no input in this iteration. -/
theorem readB_strB_frame :
    (∀ (c : Ctx) (n : Nat), (readB c n).2 = c) ∧
    (∀ (c : Ctx) (n : Nat), c.pos + (n + 1) ≤ c.bytes.length →
        (readB c (n + 1)).1 = some ((c.bytes.drop c.pos).take (n + 1))) ∧
    (∀ (s : List Char) (ctx : Ctx), (strB s ctx).2 = ctx) := by
  refine ⟨?_, ?_, ?_⟩
  · intro c n
    unfold readB
    split <;> rfl
  · intro c n hle
    simp [readB, hle]
  · intro s ctx
    have hc : (readB ctx s.length).2 = ctx := by unfold readB; split <;> rfl
    rcases h : readB ctx s.length with ⟨rd, c⟩
    rw [h] at hc
    match rd with
    | none =>
      simp only [strB, h]
      simpa using hc
    | some v =>
      simp only [strB, h]
      split <;> simpa using hc

/-- Witness for `readB_strB_frame`: reading two bytes at position 1 of
`"abc"` returns `"bc"` with the cursor still at 1, and the succeeding literal
`strB "bc"` there also ends with the cursor at 1. -/
theorem readB_strB_frame_witness :
    (readB ⟨['a', 'b', 'c'], 1⟩ 2).2 = ⟨['a', 'b', 'c'], 1⟩ ∧
    (readB ⟨['a', 'b', 'c'], 1⟩ 2).1 = some ['b', 'c'] ∧
    (strB ['b', 'c'] ⟨['a', 'b', 'c'], 1⟩).2 = ⟨['a', 'b', 'c'], 1⟩ :=
  ⟨readB_strB_frame.1 ⟨['a', 'b', 'c'], 1⟩ 2,
   readB_strB_frame.2.1 ⟨['a', 'b', 'c'], 1⟩ 1 (by decide),
   readB_strB_frame.2.2 ['b', 'c'] ⟨['a', 'b', 'c'], 1⟩⟩

/-- Claim C8 counterexample: a short read does not produce an `ErrorValue` at
all.  `str "ab"` at position 0 of the 1-byte input `"a"` asks
`map_to_local_file` to resolve position 2 of a 1-byte address space, which
throws (`crash`); the claim predicts a failure anchored at position 0. -/
theorem str_short_read_counterexample :
    (str ['a', 'b'] ⟨['a'], 0⟩).1.isCrash = true ∧
    (str ['a', 'b'] ⟨['a'], 0⟩).1.isErr = false ∧
    (str ['a', 'b'] ⟨['a'], 0⟩).1.errPos = none := ⟨rfl, rfl, rfl⟩

/-- Claim C8 (amended): when the requested span lies inside the address
space, `str s` reads `len(s)` bytes, succeeds exactly when they equal `s`,
and on mismatch fails with `[UnexpectedString(actual), ExpectedString(s)]`
anchored at the pre-read position; when the span leaves the address space
(a short read), the position translation throws instead of returning an
`ErrorValue`. -/
theorem str_spec (s : List Char) (ctx : Ctx) :
    (ctx.pos + s.length ≤ ctx.bytes.length →
      str s ctx =
        ((if (ctx.bytes.drop ctx.pos).take s.length = s
            then POut.ok ((ctx.bytes.drop ctx.pos).take s.length)
            else POut.err ⟨ctx.pos, [.unexpectedStr ((ctx.bytes.drop ctx.pos).take s.length),
                                      .expectedStr s]⟩),
          { ctx with pos := ctx.pos + s.length })) ∧
    (ctx.bytes.length < ctx.pos + s.length → str s ctx = (.crash, ctx)) := by
  constructor
  · intro hle
    simp only [str, Ctx.read, if_pos hle]
    by_cases he : (ctx.bytes.drop ctx.pos).take s.length = s
    · have hlen : ¬ ((ctx.bytes.drop ctx.pos).take s.length).length < s.length := by
        rw [he]
        omega
      simp [he, hlen]
    · simp [he]
  · intro hgt
    simp only [str, Ctx.read]
    rw [if_neg (by omega)]

/-- Witness for `str_spec`: the spec's end-to-end example — `str "abc"` over
`"xyz\n"` fails with position 0 and messages
`[UnexpectedString "xyz", ExpectedString "abc"]`, the cursor having advanced
by 3 — and the short-read crash at a concrete input. -/
theorem str_spec_witness :
    str ['a', 'b', 'c'] ⟨['x', 'y', 'z', '\n'], 0⟩ =
      (.err ⟨0, [.unexpectedStr ['x', 'y', 'z'], .expectedStr ['a', 'b', 'c']]⟩,
        ⟨['x', 'y', 'z', '\n'], 3⟩) ∧
    str ['a', 'b'] ⟨['x'], 0⟩ = (.crash, ⟨['x'], 0⟩) :=
  ⟨(str_spec ['a', 'b', 'c'] ⟨['x', 'y', 'z', '\n'], 0⟩).1 (by decide),
   (str_spec ['a', 'b'] ⟨['x'], 0⟩).2 (by decide)⟩

/-- Claim C5 counterexample: when the closing bracket run fails, `between`
does not return the opening bracket's error (the opening run succeeded, so no
such error exists): the source reads the `Error` alternative out of the
opening run's *success* value, raising `bad_variant_access`.  Input `"(ab"`
with body `str "a"` and bracket `str "("`. -/
theorem between_close_counterexample :
    (between (str ['a']) (str ['(']) ⟨['(', 'a', 'b'], 0⟩).1.isCrash = true ∧
    (between (str ['a']) (str ['(']) ⟨['(', 'a', 'b'], 0⟩).1.isErr = false := ⟨rfl, rfl⟩

/-- Claim C5 (amended): on the *opening* bracket's failure, `between` returns
that error (trivially the opening run's own error); when the brackets are
needed again and the body fails, the body's error propagates verbatim; but
when the *closing* bracket fails, the code performs an invalid variant access
on the successful opening result and crashes instead of returning any
`ErrorValue`. -/
theorem between_spec (p : ParserC α) (bracket : ParserC β) (ctx : Ctx) :
    (∀ (e : Error) (c : Ctx), bracket ctx = (.err e, c) →
        between p bracket ctx = (.err e, c)) ∧
    (∀ (bv : β) (c : Ctx) (e2 : Error) (c2 : Ctx),
        bracket ctx = (.ok bv, c) → p c = (.err e2, c2) →
        between p bracket ctx = (.err e2, c2)) ∧
    (∀ (bv : β) (c : Ctx) (v : α) (c2 : Ctx) (e3 : Error) (c3 : Ctx),
        bracket ctx = (.ok bv, c) → p c = (.ok v, c2) → bracket c2 = (.err e3, c3) →
        between p bracket ctx = (.crash, c3)) := by
  refine ⟨?_, ?_, ?_⟩
  · intro e c h
    simp [between, h]
  · intro bv c e2 c2 h h2
    simp [between, h, h2]
  · intro bv c v c2 e3 c3 h h2 h3
    simp [between, h, h2, h3]

/-- Witness for `between_spec`: the three paths at concrete inputs — opening
bracket failure on `"xa("`, body failure on `"(x("`, and the closing-bracket
crash on `"(ax"`. -/
theorem between_spec_witness :
    between (str ['a']) (str ['(']) ⟨['x', 'a', '('], 0⟩ =
      (.err ⟨0, [.unexpectedStr ['x'], .expectedStr ['(']]⟩, ⟨['x', 'a', '('], 1⟩) ∧
    between (str ['a']) (str ['(']) ⟨['(', 'x', '('], 0⟩ =
      (.err ⟨1, [.unexpectedStr ['x'], .expectedStr ['a']]⟩, ⟨['(', 'x', '('], 2⟩) ∧
    between (str ['a']) (str ['(']) ⟨['(', 'a', 'x'], 0⟩ =
      (.crash, ⟨['(', 'a', 'x'], 3⟩) :=
  ⟨(between_spec (str ['a']) (str ['(']) ⟨['x', 'a', '('], 0⟩).1
      ⟨0, [.unexpectedStr ['x'], .expectedStr ['(']]⟩ ⟨['x', 'a', '('], 1⟩ rfl,
   (between_spec (str ['a']) (str ['(']) ⟨['(', 'x', '('], 0⟩).2.1
      ['('] ⟨['(', 'x', '('], 1⟩ ⟨1, [.unexpectedStr ['x'], .expectedStr ['a']]⟩
      ⟨['(', 'x', '('], 2⟩ rfl rfl,
   (between_spec (str ['a']) (str ['(']) ⟨['(', 'a', 'x'], 0⟩).2.2
      ['('] ⟨['(', 'a', 'x'], 1⟩ ['a'] ⟨['(', 'a', 'x'], 2⟩
      ⟨2, [.unexpectedStr ['x'], .expectedStr ['(']]⟩ ⟨['(', 'a', 'x'], 3⟩
      rfl rfl rfl⟩

/-- Claim C1 counterexample: `mapN` does not short-circuit.  Over input
`"abc"` with `p1 = str "a"` (succeeds), `p2 = str "x"` (fails at position 1)
and `p3 = str "x"` (fails at position 2), the third parser *is* run: the
overall error is anchored at position 2 (the third parser's failure, which
overwrote the second's) and the cursor ends at 3, not at 2 as the claim
requires. -/
theorem map3_counterexample :
    let res := map3 (fun (a b c : List Char) => (a, b, c))
        (str ['a']) (str ['x']) (str ['x']) ⟨['a', 'b', 'c'], 0⟩
    res.1.errPos = some 2 ∧ res.2.pos = 3 ∧
      ¬(res.1.errPos = some 1 ∧ res.2.pos = 2) := by decide

/-- Claim C1 (amended): `mapN` runs all sub-parsers left-to-right against the
same cursor with *no* short-circuiting: after the second of three parsers
fails, the third still runs and its consumption is kept; the overall result
is the second parser's failure only if the third does not itself fail (each
failure overwrites the previous one), and the cursor ends after all three
runs. -/
theorem map3_spec (f : α → β → γ → δ) (p1 : ParserC α) (p2 : ParserC β)
    (p3 : ParserC γ) (ctx : Ctx) (v1 : α) (c1 : Ctx) (e2 : Error) (c2 : Ctx)
    (h1 : p1 ctx = (.ok v1, c1)) (h2 : p2 c1 = (.err e2, c2)) :
    (∀ (v3 : γ) (c3 : Ctx), p3 c2 = (.ok v3, c3) →
        map3 f p1 p2 p3 ctx = (.err e2, c3)) ∧
    (∀ (e3 : Error) (c3 : Ctx), p3 c2 = (.err e3, c3) →
        map3 f p1 p2 p3 ctx = (.err e3, c3)) := by
  constructor
  · intro v3 c3 h3
    simp [map3, h1, h2, h3]
  · intro e3 c3 h3
    simp [map3, h1, h2, h3]

/-- Witness for `map3_spec`: over `"abc"` with the second parser failing and
the third succeeding, the result is the second's failure and the cursor sits
at 3 — after the first parser's consumption, the failing second's, *and* the
succeeding third's. -/
theorem map3_spec_witness :
    map3 (fun (a b c : List Char) => (a, b, c))
        (str ['a']) (str ['x']) (str ['c']) ⟨['a', 'b', 'c'], 0⟩ =
      (.err ⟨1, [.unexpectedStr ['b'], .expectedStr ['x']]⟩, ⟨['a', 'b', 'c'], 3⟩) :=
  (map3_spec (fun (a b c : List Char) => (a, b, c))
      (str ['a']) (str ['x']) (str ['c']) ⟨['a', 'b', 'c'], 0⟩
      ['a'] ⟨['a', 'b', 'c'], 1⟩ ⟨1, [.unexpectedStr ['b'], .expectedStr ['x']]⟩
      ⟨['a', 'b', 'c'], 2⟩ rfl rfl).1 ['c'] ⟨['a', 'b', 'c'], 3⟩ rfl

/-- Claim C2 counterexample: the same-type `or_parse` discards the first
branch's failure entirely.  `or(str "a", str "b")` over `"cd"`: both branches
fail, yet the returned error is exactly the second branch's — two plain
fragments, no trailing nested `ErrorValue` for the first branch (the claim
requires three fragments ending in a nested one). -/
theorem or_parse_counterexample :
    let res := or_parse (str ['a']) (str ['b']) ⟨['c', 'd'], 0⟩
    res.1.errPos = some 1 ∧
    res.1.errMsgs.map List.length = some 2 ∧
    res.1.errMsgs.map (List.map Msg.isNested) = some [false, false] ∧
    ¬(res.1.errMsgs.map List.length = some 3) := by decide

/-- Claim C2 (amended): only the *heterogeneous-type* `or_parse` preserves
both branches on double failure — the second branch's messages first, the
first branch's `ErrorValue` appended as a trailing nested fragment — while
the same-type form returns the second branch's error alone, discarding the
first branch's failure. -/
theorem or_parse_double_failure (p q : ParserC α) (ctx : Ctx)
    (e1 : Error) (c1 : Ctx) (e2 : Error) (c2 : Ctx)
    (h1 : p ctx = (.err e1, c1)) (h2 : q c1 = (.err e2, c2)) :
    or_parse2 p q ctx =
      (.err ⟨e2.position, e2.messages ++ [Msg.nested e1.position e1.messages]⟩, c2) ∧
    or_parse p q ctx = (.err e2, c2) := by
  constructor
  · simp [or_parse2, h1, h2]
  · simp [or_parse, h1, h2]

/-- Witness for `or_parse_double_failure`: `p = str "a"`, `q = str "b"` over
`"cd"` — the heterogeneous form nests `p`'s error after `q`'s two fragments,
the same-type form returns `q`'s error bare. -/
theorem or_parse_double_failure_witness :
    or_parse2 (str ['a']) (str ['b']) ⟨['c', 'd'], 0⟩ =
      (.err ⟨1, [.unexpectedStr ['d'], .expectedStr ['b'],
                 .nested 0 [.unexpectedStr ['c'], .expectedStr ['a']]]⟩,
        ⟨['c', 'd'], 2⟩) ∧
    or_parse (str ['a']) (str ['b']) ⟨['c', 'd'], 0⟩ =
      (.err ⟨1, [.unexpectedStr ['d'], .expectedStr ['b']]⟩, ⟨['c', 'd'], 2⟩) :=
  or_parse_double_failure (str ['a']) (str ['b']) ⟨['c', 'd'], 0⟩
    ⟨0, [.unexpectedStr ['c'], .expectedStr ['a']]⟩ ⟨['c', 'd'], 1⟩
    ⟨1, [.unexpectedStr ['d'], .expectedStr ['b']]⟩ ⟨['c', 'd'], 2⟩ rfl rfl

/-! ### FileSet position mapping (claim C6) -/

/-- Auxiliary: the `map_from_local_file` scan, entered with counter `cur` and
the accumulated total, resolves file `cur + idx` to the accumulated total
plus the sum of the next `idx` lengths plus the local position. -/
theorem mfl_go_found (lens : List Nat) :
    ∀ (idx cur total x : Nat), idx < lens.length →
      mfl_go lens (cur + idx) cur total x = some (total + (lens.take idx).sum + x) := by
  induction lens with
  | nil =>
    intro idx cur total x h
    simp at h
  | cons item rest ih =>
    intro idx cur total x h
    cases idx with
    | zero =>
      simp only [Nat.add_zero, mfl_go, eq_self_iff_true, if_true, List.take_zero,
        List.sum_nil]
      congr 1
      omega
    | succ j =>
      have hne : cur ≠ cur + (j + 1) := by omega
      simp only [mfl_go, if_neg hne, List.take_succ_cons, List.sum_cons]
      have harg : cur + (j + 1) = (cur + 1) + j := by omega
      rw [harg, ih j (cur + 1) (total + item) x (by simpa using h)]
      congr 1
      omega

/-- Auxiliary: the `map_to_local_file` scan only depends on the offset of the
position from the accumulated total. -/
theorem mtl_go_shift (lens : List Nat) :
    ∀ (total p : Nat), mtl_go lens total (total + p) = mtl_go lens 0 p := by
  induction lens with
  | nil =>
    intro total p
    rfl
  | cons item rest ih =>
    intro total p
    by_cases hp : p ≤ item
    · have h1 : total + p ≤ total + item := by omega
      have h2 : p ≤ 0 + item := by omega
      simp only [mtl_go, if_pos h1, if_pos h2]
      congr 1
      omega
    · have h1 : ¬ (total + p ≤ total + item) := by omega
      have h2 : ¬ (p ≤ 0 + item) := by omega
      simp only [mtl_go, if_neg h1, if_neg h2]
      have hL := ih (total + item) (p - item)
      rw [show (total + item) + (p - item) = total + p from by omega] at hL
      have hR := ih (0 + item) (p - item)
      rw [show (0 + item) + (p - item) = p from by omega] at hR
      rw [hL, hR]

/-- Auxiliary: `map_to_local_file` inverts the prefix-sum encoding whenever
the local position is at least 1 (or the file is the first one). -/
theorem mtl_prefix (lens : List Nat) :
    ∀ (idx x : Nat) (h : idx < lens.length), (1 ≤ x ∨ idx = 0) →
      x ≤ lens.get ⟨idx, h⟩ →
      map_to_local_file lens ((lens.take idx).sum + x) = some x := by
  induction lens with
  | nil =>
    intro idx x h
    simp at h
  | cons item rest ih =>
    intro idx x h hdisj hle
    cases idx with
    | zero =>
      have hle2 : x ≤ item := by simpa using hle
      simp only [List.take_zero, List.sum_nil, Nat.zero_add, map_to_local_file, mtl_go]
      rw [if_pos hle2]
      congr 1
      omega
    | succ j =>
      have hx : 1 ≤ x := by
        rcases hdisj with h1 | h0
        · exact h1
        · simp at h0
      simp only [map_to_local_file, mtl_go, List.take_succ_cons, List.sum_cons]
      have hcond : ¬ (item + (rest.take j).sum + x ≤ 0 + item) := by omega
      rw [if_neg hcond]
      have hsh := mtl_go_shift rest item ((rest.take j).sum + x)
      rw [show (0 + item) = item from by omega,
          show item + (rest.take j).sum + x = item + ((rest.take j).sum + x) from by omega,
          hsh]
      exact ih j x (by simpa using h) (Or.inl hx) (by simpa using hle)

/-- Claim C6 counterexample: over a SourceSet with file lengths `[3, 5]`,
local position 0 of the second file maps to global position 3, but mapping
back lands at local position 3 *of the first file* (the `pos <= total_sizes`
comparison accepts the boundary), so `toLocal(toGlobal(F2, 0)) = 3`, not 0. -/
theorem map_local_roundtrip_counterexample :
    map_from_local_file [3, 5] 1 0 = some 3 ∧
    (map_from_local_file [3, 5] 1 0).bind (map_to_local_file [3, 5]) = some 3 ∧
    ¬ ((map_from_local_file [3, 5] 1 0).bind (map_to_local_file [3, 5]) = some 0) := by
  decide

/-- Claim C6 (amended): `toLocal(toGlobal(Fi, x)) = x` holds for every local
position `x` with `1 ≤ x ≤ length(Fi)`, and for the first file also at
`x = 0`; at `x = 0` of a later file the `pos <= total_sizes` boundary makes
the global position resolve into the preceding file instead, so the mappings
are exact mutual inverses only away from the file-start boundaries. -/
theorem map_local_roundtrip (lens : List Nat) (fileIdx x : Nat)
    (hidx : fileIdx < lens.length) (hx : 1 ≤ x ∨ fileIdx = 0)
    (hle : x ≤ lens.get ⟨fileIdx, hidx⟩) :
    (map_from_local_file lens fileIdx x).bind (map_to_local_file lens) = some x := by
  have h1 : map_from_local_file lens fileIdx x = some ((lens.take fileIdx).sum + x) := by
    have h0 := mfl_go_found lens fileIdx 0 0 x hidx
    simpa [map_from_local_file] using h0
  rw [h1, Option.some_bind]
  exact mtl_prefix lens fileIdx x hidx hx hle

/-- Witness for `map_local_roundtrip`: lengths `[3, 5]`, second file, local
position 2 round-trips through global position 5; first file, local position
0 round-trips through global position 0. -/
theorem map_local_roundtrip_witness :
    (map_from_local_file [3, 5] 1 2).bind (map_to_local_file [3, 5]) = some 2 ∧
    (map_from_local_file [3, 5] 0 0).bind (map_to_local_file [3, 5]) = some 0 :=
  ⟨map_local_roundtrip [3, 5] 1 2 (by decide) (Or.inl (by decide)) (by decide),
   map_local_roundtrip [3, 5] 0 0 (by decide) (Or.inr rfl) (by decide)⟩

/-! ### Line/column mapping (claim C7) -/

/-- Auxiliary: every scan step strictly increases the (line, column) state in
lexicographic order — a newline bumps the line, any other byte bumps the
column. -/
theorem ptlc_step_lt (lc : Nat × Nat) (c : Char) : lexLt lc (ptlc_step lc c) := by
  unfold lexLt ptlc_step
  split
  · left
    omega
  · right
    exact ⟨rfl, by omega⟩

/-- Auxiliary: `lexLt` is transitive. -/
theorem lexLt_trans {a b c : Nat × Nat} (h1 : lexLt a b) (h2 : lexLt b c) :
    lexLt a c := by
  unfold lexLt at *
  omega

/-- Auxiliary: `lexLt` is irreflexive. -/
theorem lexLt_irrefl (a : Nat × Nat) (h : lexLt a a) : False := by
  unfold lexLt at h
  omega

/-- Auxiliary: the state at position `k + 1` is one scan step past the state
at position `k`. -/
theorem ptlc_take_succ (bytes : List Char) (k : Nat) (h : k < bytes.length) :
    pos_to_line_col bytes (k + 1)
      = ptlc_step (pos_to_line_col bytes k) (bytes.get ⟨k, h⟩) := by
  unfold pos_to_line_col
  rw [show bytes.take (k + 1) = bytes.take k ++ [bytes.get ⟨k, h⟩] from by
        rw [List.take_succ]
        congr 1
        simp [List.getElem?_eq_getElem h],
      List.foldl_append]
  rfl

/-- Auxiliary: (line, column) states of distinct positions are distinct —
the scan state grows strictly with the position. -/
theorem ptlc_strictMono (bytes : List Char) :
    ∀ (k j : Nat), j < k → k ≤ bytes.length →
      lexLt (pos_to_line_col bytes j) (pos_to_line_col bytes k) := by
  intro k
  induction k with
  | zero =>
    intro j hj
    omega
  | succ m ih =>
    intro j hj hk
    have hm : m < bytes.length := by omega
    have hstep := ptlc_step_lt (pos_to_line_col bytes m) (bytes.get ⟨m, hm⟩)
    rw [← ptlc_take_succ bytes m hm] at hstep
    rcases Nat.lt_or_ge j m with hjm | hjm
    · exact lexLt_trans (ih j hjm (by omega)) hstep
    · have : j = m := by omega
      subst this
      exact hstep

/-- Auxiliary: the `line_col_to_pos` scan, entered at stream position `j`
with position `j`'s state, hits the target state of position `pos` exactly at
stream position `pos` (never earlier, by strict monotonicity). -/
theorem lctp_scan (bytes : List Char) (pos : Nat) (hpos : pos ≤ bytes.length) :
    ∀ (n j : Nat), j + n = pos →
      lctp_go (pos_to_line_col bytes pos).1 (pos_to_line_col bytes pos).2
        (bytes.drop j) (pos_to_line_col bytes j).1 (pos_to_line_col bytes j).2 j
        = some pos := by
  intro n
  induction n with
  | zero =>
    intro j hj
    have : j = pos := by omega
    subst this
    cases hd : bytes.drop j with
    | nil => simp [lctp_go]
    | cons c rest => simp [lctp_go]
  | succ m ih =>
    intro j hj
    have hjlt : j < bytes.length := by omega
    have hne : ¬ ((pos_to_line_col bytes pos).1 = (pos_to_line_col bytes j).1 ∧
                  (pos_to_line_col bytes pos).2 = (pos_to_line_col bytes j).2) := by
      intro hcon
      have hlt := ptlc_strictMono bytes pos j (by omega) hpos
      apply lexLt_irrefl (pos_to_line_col bytes j)
      have heq : pos_to_line_col bytes pos = pos_to_line_col bytes j :=
        Prod.ext hcon.1 hcon.2
      rw [heq] at hlt
      exact hlt
    have hdrop : bytes.drop j = bytes.get ⟨j, hjlt⟩ :: bytes.drop (j + 1) := by
      rw [List.drop_eq_getElem_cons hjlt]
      rfl
    have hsucc := ptlc_take_succ bytes j hjlt
    have hih := ih (j + 1) (by omega)
    rw [hdrop]
    unfold lctp_go
    rw [if_neg hne]
    by_cases hc : bytes.get ⟨j, hjlt⟩ = '\n'
    · rw [if_pos hc]
      have hpair : pos_to_line_col bytes (j + 1) =
          ((pos_to_line_col bytes j).1 + 1, 1) := by
        rw [hsucc]
        unfold ptlc_step
        rw [if_pos hc]
      rw [hpair] at hih
      exact hih
    · rw [if_neg hc]
      have hpair : pos_to_line_col bytes (j + 1) =
          ((pos_to_line_col bytes j).1, (pos_to_line_col bytes j).2 + 1) := by
        rw [hsucc]
        unfold ptlc_step
        rw [if_neg hc]
      rw [hpair] at hih
      exact hih

/-- Auxiliary: the line of the scan counts newlines. -/
theorem ptlc_fst (l : List Char) :
    ∀ (L C : Nat), (l.foldl ptlc_step (L, C)).1 = L + l.count '\n' := by
  induction l with
  | nil =>
    intro L C
    simp
  | cons c rest ih =>
    intro L C
    simp only [List.foldl_cons, List.count_cons]
    by_cases hc : c = '\n'
    · rw [show ptlc_step (L, C) c = (L + 1, 1) from by simp [ptlc_step, hc], ih]
      simp [hc]
      omega
    · rw [show ptlc_step (L, C) c = (L, C + 1) from by simp [ptlc_step, hc], ih]
      have hcb : (c == '\n') = false := by simpa using hc
      simp [hcb]

/-- Auxiliary: the column of the scan counts bytes since the last newline (or
since the start when no newline occurred). -/
theorem ptlc_snd (l : List Char) :
    ∀ (L C : Nat), (l.foldl ptlc_step (L, C)).2 =
      if '\n' ∈ l then 1 + (l.reverse.takeWhile (fun c => c != '\n')).length
      else C + l.length := by
  induction l using List.reverseRecOn with
  | nil =>
    intro L C
    simp
  | append_singleton l c ih =>
    intro L C
    rw [List.foldl_append]
    by_cases hc : c = '\n'
    · have hmem : '\n' ∈ l ++ [c] := by simp [hc]
      rw [if_pos hmem]
      simp only [List.reverse_append, List.reverse_cons, List.reverse_nil,
        List.nil_append, List.cons_append]
      rw [show (c :: l.reverse).takeWhile (fun c => c != '\n') = [] from by
            simp [List.takeWhile_cons, hc]]
      simp [ptlc_step, hc]
    · have hcb : (c != '\n') = true := by simpa using hc
      simp only [List.foldl_cons, List.foldl_nil]
      rw [show ptlc_step (l.foldl ptlc_step (L, C)) c =
            ((l.foldl ptlc_step (L, C)).1, (l.foldl ptlc_step (L, C)).2 + 1) from by
            simp [ptlc_step, hc]]
      simp only []
      rw [ih L C]
      by_cases hmem : '\n' ∈ l
      · have hmem2 : '\n' ∈ l ++ [c] := by simp [hmem]
        rw [if_pos hmem2]
        simp only [List.reverse_append, List.reverse_cons, List.reverse_nil,
          List.nil_append, List.cons_append]
        rw [if_pos hmem]
        rw [show (c :: l.reverse).takeWhile (fun c => c != '\n')
              = c :: l.reverse.takeWhile (fun c => c != '\n') from by
              simp [List.takeWhile_cons, hcb]]
        simp
        omega
      · have hmem2 : ¬ ('\n' ∈ l ++ [c]) := by
          simp only [List.mem_append, List.mem_singleton]
          rintro (h1 | h2)
          · exact hmem h1
          · exact hc h2.symm
        rw [if_neg hmem2, if_neg hmem]
        simp only [List.length_append, List.length_cons, List.length_nil]
        omega

/-- Claim C7 (confirmed, with the claimed boundary exception vacuous): for
every position `p` in `[0, length]`, `lineColToPos` applied to
`posToLineCol(f, p)` returns `p` — exactly, including at line-start bytes
immediately following a newline — and `posToLineCol` is 1-based, its line
being 1 plus the number of `\n` bytes before `p` and its column 1 plus the
number of bytes since the last newline (or since the file start when no
newline precedes `p`). -/
theorem pos_line_col_roundtrip (bytes : List Char) (pos : Nat)
    (h : pos ≤ bytes.length) :
    line_col_to_pos bytes (pos_to_line_col bytes pos).1 (pos_to_line_col bytes pos).2
      = some pos ∧
    (pos_to_line_col bytes pos).1 = 1 + (bytes.take pos).count '\n' ∧
    (pos_to_line_col bytes pos).2 =
      (if '\n' ∈ bytes.take pos then
        1 + ((bytes.take pos).reverse.takeWhile (fun c => c != '\n')).length
      else 1 + (bytes.take pos).length) := by
  refine ⟨?_, ?_, ?_⟩
  · have h0 := lctp_scan bytes pos h pos 0 (by omega)
    simpa [line_col_to_pos, pos_to_line_col] using h0
  · exact ptlc_fst (bytes.take pos) 1 1
  · have h2 := ptlc_snd (bytes.take pos) 1 1
    unfold pos_to_line_col
    rw [h2]

/-- Witness for `pos_line_col_roundtrip`: the file `"ab\ncd"` at position 4
(the byte `d`, line 2, column 2) round-trips exactly. -/
theorem pos_line_col_roundtrip_witness :
    line_col_to_pos ['a', 'b', '\n', 'c', 'd']
        (pos_to_line_col ['a', 'b', '\n', 'c', 'd'] 4).1
        (pos_to_line_col ['a', 'b', '\n', 'c', 'd'] 4).2 = some 4 ∧
    (pos_to_line_col ['a', 'b', '\n', 'c', 'd'] 4).1
      = 1 + (List.take 4 ['a', 'b', '\n', 'c', 'd']).count '\n' ∧
    (pos_to_line_col ['a', 'b', '\n', 'c', 'd'] 4).2 =
      (if '\n' ∈ List.take 4 ['a', 'b', '\n', 'c', 'd'] then
        1 + ((List.take 4 ['a', 'b', '\n', 'c', 'd']).reverse.takeWhile
              (fun c => c != '\n')).length
      else 1 + (List.take 4 ['a', 'b', '\n', 'c', 'd']).length) :=
  pos_line_col_roundtrip ['a', 'b', '\n', 'c', 'd'] 4 (by decide)

/-! ### The cursor invariant (claim C9) -/

/-- Auxiliary: the predicate-run loop never moves the position past
`length + 1` when it starts within that bound (at `length` it reads the
indeterminate byte; one step later `current()` throws). -/
theorem predLoop_bound (g : Char) (f : Char → Bool) (bytes : List Char) :
    ∀ (pos : Nat), pos ≤ bytes.length + 1 → (predLoop g f bytes pos).2 ≤ bytes.length + 1 := by
  have H : ∀ (n pos : Nat), bytes.length + 1 - pos ≤ n → pos ≤ bytes.length + 1 →
      (predLoop g f bytes pos).2 ≤ bytes.length + 1 := by
    intro n
    induction n with
    | zero =>
      intro pos hn hpos
      have hgt : bytes.length < pos := by omega
      unfold predLoop
      rw [dif_pos hgt]
      exact hpos
    | succ m ih =>
      intro pos hn hpos
      unfold predLoop
      by_cases hgt : bytes.length < pos
      · rw [dif_pos hgt]
        exact hpos
      · rw [dif_neg hgt]
        simp only []
        split
        · split
          · exact ih (pos + 1) (by omega) (by omega)
          · exact hpos
        · split
          · exact ih (pos + 1) (by omega) (by omega)
          · exact hpos
  intro pos hpos
  exact H (bytes.length + 1 - pos) pos (by omega) hpos

/-- Claim C9 (confirmed): every parser built from the library's combinators
(literals, predicate runs, `or_parse`, `attempt`, `many`, `between`,
sequential `mapN` composition) preserves the cursor invariant
`0 ≤ position ≤ total length + 1` — positions are naturals, so the lower
bound is structural, and the upper bound is enforced by the position
translation throwing on any access beyond the address space before the
position is advanced.  The byte space itself is never modified.  The
indeterminate end-of-file byte `g` is universally quantified, so the result
holds whatever the failing stream read leaves in the buffer. -/
theorem cursor_invariant_preserved (g : Char) (fuel : Nat) (e : PExp) (ctx : Ctx) :
    (runP g fuel e ctx).2.bytes = ctx.bytes ∧
    (ctx.pos ≤ ctx.bytes.length + 1 → (runP g fuel e ctx).2.pos ≤ ctx.bytes.length + 1) := by
  have MAIN : ∀ (N fuel : Nat) (e : PExp) (ctx : Ctx), fuel + sizeOf e < N →
      (runP g fuel e ctx).2.bytes = ctx.bytes ∧
      (ctx.pos ≤ ctx.bytes.length + 1 →
        (runP g fuel e ctx).2.pos ≤ ctx.bytes.length + 1) := by
    intro N
    induction N with
    | zero =>
      intro fuel e ctx h
      omega
    | succ n ih =>
      intro fuel e ctx h
      cases e with
      | lit s =>
        simp only [runP]
        split
        · split
          · exact ⟨rfl, fun _ => by simp; omega⟩
          · exact ⟨rfl, fun _ => by simp; omega⟩
        · exact ⟨rfl, fun hpos => hpos⟩
      | predRun f =>
        refine ⟨?_, ?_⟩
        · simp [runP]
        · intro hpos
          simp only [runP]
          exact predLoop_bound g f ctx.bytes ctx.pos hpos
      | orE p q =>
        have hsz : sizeOf p < sizeOf (PExp.orE p q) ∧ sizeOf q < sizeOf (PExp.orE p q) := by
          simp
          omega
        have hp := ih fuel p ctx (by omega)
        rcases hr : runP g fuel p ctx with ⟨r, c⟩
        rw [hr] at hp
        match r with
        | .ok =>
          simp only [runP, hr]
          exact hp
        | .crash =>
          simp only [runP, hr]
          exact hp
        | .err =>
          have hq := ih fuel q c (by omega)
          simp only [runP, hr]
          refine ⟨by rw [hq.1, hp.1], fun hpos => ?_⟩
          have h2 := hq.2 (by rw [hp.1]; exact hp.2 hpos)
          rw [hp.1] at h2
          exact h2
      | attemptE p =>
        have hsz : sizeOf p < sizeOf (PExp.attemptE p) := by
          simp
        have hp := ih fuel p ctx (by omega)
        rcases hr : runP g fuel p ctx with ⟨r, c⟩
        rw [hr] at hp
        match r with
        | .ok =>
          simp only [runP, hr]
          exact hp
        | .crash =>
          simp only [runP, hr]
          exact hp
        | .err =>
          simp only [runP, hr]
          exact ⟨hp.1, fun hpos => hpos⟩
      | manyE p =>
        cases fuel with
        | zero =>
          exact ⟨by simp [runP], fun hpos => by simpa [runP] using hpos⟩
        | succ m =>
          have hsz : sizeOf p < sizeOf (PExp.manyE p) := by
            simp
          have hp := ih (m + 1) p ctx (by omega)
          rcases hr : runP g (m + 1) p ctx with ⟨r, c⟩
          rw [hr] at hp
          match r with
          | .err =>
            simp only [runP, hr]
            exact hp
          | .crash =>
            simp only [runP, hr]
            exact hp
          | .ok =>
            have hm := ih m (PExp.manyE p) c (by omega)
            simp only [runP, hr]
            refine ⟨by rw [hm.1, hp.1], fun hpos => ?_⟩
            have h2 := hm.2 (by rw [hp.1]; exact hp.2 hpos)
            rw [hp.1] at h2
            exact h2
      | betweenE p b =>
        have hsz : sizeOf p < sizeOf (PExp.betweenE p b) ∧
            sizeOf b < sizeOf (PExp.betweenE p b) := by
          simp
          omega
        have hb := ih fuel b ctx (by omega)
        rcases hr : runP g fuel b ctx with ⟨r, c⟩
        rw [hr] at hb
        match r with
        | .err =>
          simp only [runP, hr]
          exact hb
        | .crash =>
          simp only [runP, hr]
          exact hb
        | .ok =>
          have hp := ih fuel p c (by omega)
          rcases hr2 : runP g fuel p c with ⟨r2, c2⟩
          rw [hr2] at hp
          have hc2bytes : c2.bytes = ctx.bytes := by rw [hp.1, hb.1]
          match r2 with
          | .err =>
            simp only [runP, hr, hr2]
            refine ⟨hc2bytes, fun hpos => ?_⟩
            have h2 := hp.2 (by rw [hb.1]; exact hb.2 hpos)
            rw [hb.1] at h2
            exact h2
          | .crash =>
            simp only [runP, hr, hr2]
            refine ⟨hc2bytes, fun hpos => ?_⟩
            have h2 := hp.2 (by rw [hb.1]; exact hb.2 hpos)
            rw [hb.1] at h2
            exact h2
          | .ok =>
            have hb2 := ih fuel b c2 (by omega)
            rcases hr3 : runP g fuel b c2 with ⟨r3, c3⟩
            rw [hr3] at hb2
            have hc3bytes : c3.bytes = ctx.bytes := by rw [hb2.1, hc2bytes]
            have hpos3 : ctx.pos ≤ ctx.bytes.length + 1 → c3.pos ≤ ctx.bytes.length + 1 := by
              intro hpos
              have h2 := hp.2 (by rw [hb.1]; exact hb.2 hpos)
              have h3 := hb2.2 (by rw [hc2bytes, ← hb.1]; exact h2)
              rw [hc2bytes] at h3
              exact h3
            match r3 with
            | .err =>
              simp only [runP, hr, hr2, hr3]
              exact ⟨hc3bytes, hpos3⟩
            | .crash =>
              simp only [runP, hr, hr2, hr3]
              exact ⟨hc3bytes, hpos3⟩
            | .ok =>
              simp only [runP, hr, hr2, hr3]
              exact ⟨hc3bytes, hpos3⟩
      | seqE p q =>
        have hsz : sizeOf p < sizeOf (PExp.seqE p q) ∧ sizeOf q < sizeOf (PExp.seqE p q) := by
          simp
          omega
        have hp := ih fuel p ctx (by omega)
        rcases hr : runP g fuel p ctx with ⟨r, c⟩
        rw [hr] at hp
        match r with
        | .crash =>
          simp only [runP, hr]
          exact hp
        | .ok =>
          have hq := ih fuel q c (by omega)
          rcases hr2 : runP g fuel q c with ⟨r2, c2⟩
          rw [hr2] at hq
          have hbytes : c2.bytes = ctx.bytes := by rw [hq.1, hp.1]
          have hpos2 : ctx.pos ≤ ctx.bytes.length + 1 → c2.pos ≤ ctx.bytes.length + 1 := by
            intro hpos
            have h2 := hq.2 (by rw [hp.1]; exact hp.2 hpos)
            rw [hp.1] at h2
            exact h2
          match r2 with
          | .crash =>
            simp only [runP, hr, hr2]
            exact ⟨hbytes, hpos2⟩
          | .ok =>
            simp only [runP, hr, hr2]
            split
            · exact ⟨hbytes, hpos2⟩
            · exact ⟨hbytes, hpos2⟩
          | .err =>
            simp only [runP, hr, hr2]
            split
            · exact ⟨hbytes, hpos2⟩
            · exact ⟨hbytes, hpos2⟩
        | .err =>
          have hq := ih fuel q c (by omega)
          rcases hr2 : runP g fuel q c with ⟨r2, c2⟩
          rw [hr2] at hq
          have hbytes : c2.bytes = ctx.bytes := by rw [hq.1, hp.1]
          have hpos2 : ctx.pos ≤ ctx.bytes.length + 1 → c2.pos ≤ ctx.bytes.length + 1 := by
            intro hpos
            have h2 := hq.2 (by rw [hp.1]; exact hp.2 hpos)
            rw [hp.1] at h2
            exact h2
          match r2 with
          | .crash =>
            simp only [runP, hr, hr2]
            exact ⟨hbytes, hpos2⟩
          | .ok =>
            simp only [runP, hr, hr2]
            split
            · exact ⟨hbytes, hpos2⟩
            · exact ⟨hbytes, hpos2⟩
          | .err =>
            simp only [runP, hr, hr2]
            split
            · exact ⟨hbytes, hpos2⟩
            · exact ⟨hbytes, hpos2⟩
  exact MAIN (fuel + sizeOf e + 1) fuel e ctx (by omega)


/-- Witness for `cursor_invariant_preserved`: a sequence of a literal and a
predicate run over `"abc"` from position 0 ends within the bound (at
position 3 ≤ 4), with the byte space untouched. -/
theorem cursor_invariant_preserved_witness :
    (runP 'q' 2 (.seqE (.lit ['a', 'b']) (.predRun (fun c => c == 'c')))
        ⟨['a', 'b', 'c'], 0⟩).2.bytes = ['a', 'b', 'c'] ∧
    (runP 'q' 2 (.seqE (.lit ['a', 'b']) (.predRun (fun c => c == 'c')))
        ⟨['a', 'b', 'c'], 0⟩).2.pos ≤ (['a', 'b', 'c'] : List Char).length + 1 :=
  ⟨(cursor_invariant_preserved 'q' 2
      (.seqE (.lit ['a', 'b']) (.predRun (fun c => c == 'c')))
      ⟨['a', 'b', 'c'], 0⟩).1,
   (cursor_invariant_preserved 'q' 2
      (.seqE (.lit ['a', 'b']) (.predRun (fun c => c == 'c')))
      ⟨['a', 'b', 'c'], 0⟩).2 (by decide)⟩

end Alpm
